import Mathlib

/-!
Verification of the ensemble_caller repository's core components against its
specification: the order extractor (`parse_order`), the order consistency
checker (`compare_orders`), the stream reset (`reset_vcf_files`), the name
extractor (`extract_names`), and the k-way aligned walker
(`create_vcf_walktogether`).

The Python source is shallowly embedded: records become a structure, streams
become lists of records, exceptions become `Except`, and Python 2 mixed-type
comparisons (int vs str) are embedded by an explicit token order.  Python 2
string comparison is byte-wise lexicographic; it is embedded as the
lexicographic order on `String.data` (UTF-8 is order-preserving on
codepoints).
-/

/-! ## Data model

A VCF record, as far as the core components inspect it: chromosome label,
1-based position, reference allele and alternate alleles
(`record.CHROM`, `record.POS`, `record.REF`, `record.ALT` in the source).
Positions are the nonnegative integers produced by the VCF reader. -/

structure VCFRecord where
  CHROM : String
  POS : Nat
  REF : String
  ALT : List String
deriving DecidableEq

/-! ## Generic lexicographic comparison (Python 2 sequence comparison)

Python 2 compares two sequences by scanning for the first unequal pair of
elements and comparing that pair; a strict prefix is smaller.  `x <= y` is
`x < y or x == y`. -/

/-- Python 2 `<` on lists, lexicographic over an element strict order with
structural equality. -/
def lexLt (lt : α → α → Bool) [DecidableEq α] : List α → List α → Bool
  | _, [] => false
  | [], _ :: _ => true
  | a :: as, b :: bs => lt a b || (decide (a = b) && lexLt lt as bs)

/-- Python 2 `<=` on lists: `<` or `==`. -/
def lexLe (lt : α → α → Bool) [DecidableEq α] (x y : List α) : Bool :=
  lexLt lt x y || decide (x = y)

theorem lexLt_trans (lt : α → α → Bool) [DecidableEq α]
    (htr : ∀ a b c, lt a b = true → lt b c = true → lt a c = true) :
    ∀ {x y z : List α}, lexLt lt x y = true → lexLt lt y z = true →
      lexLt lt x z = true := by
  intro x
  induction x with
  | nil =>
    intro y z h1 h2
    cases y with
    | nil => exact h2
    | cons b bs =>
      cases z with
      | nil => simp [lexLt] at h2
      | cons c cs => simp [lexLt]
  | cons a as ih =>
    intro y z h1 h2
    cases y with
    | nil => simp [lexLt] at h1
    | cons b bs =>
      cases z with
      | nil => simp [lexLt] at h2
      | cons c cs =>
        simp only [lexLt, Bool.or_eq_true, Bool.and_eq_true,
          decide_eq_true_eq] at h1 h2 ⊢
        rcases h1 with h1 | ⟨heq1, h1⟩
        · rcases h2 with h2 | ⟨heq2, h2⟩
          · exact Or.inl (htr _ _ _ h1 h2)
          · exact Or.inl (heq2 ▸ h1)
        · rcases h2 with h2 | ⟨heq2, h2⟩
          · exact Or.inl (heq1 ▸ h2)
          · exact Or.inr ⟨heq1.trans heq2, ih h1 h2⟩

theorem lexLt_asymm (lt : α → α → Bool) [DecidableEq α]
    (has : ∀ a b, lt a b = true → lt b a = true → False) :
    ∀ {x y : List α}, lexLt lt x y = true → lexLt lt y x = true → False := by
  intro x
  induction x with
  | nil =>
    intro y h1 h2
    cases y with
    | nil => simp [lexLt] at h1
    | cons b bs => simp [lexLt] at h2
  | cons a as ih =>
    intro y h1 h2
    cases y with
    | nil => simp [lexLt] at h1
    | cons b bs =>
      simp only [lexLt, Bool.or_eq_true, Bool.and_eq_true,
        decide_eq_true_eq] at h1 h2
      rcases h1 with h1 | ⟨heq1, h1⟩
      · rcases h2 with h2 | ⟨heq2, h2⟩
        · exact has _ _ h1 h2
        · exact has _ _ h1 (heq2 ▸ h1)
      · rcases h2 with h2 | ⟨heq2, h2⟩
        · exact has _ _ h2 (heq1 ▸ h2)
        · exact ih h1 h2

theorem lexLe_trans (lt : α → α → Bool) [DecidableEq α]
    (htr : ∀ a b c, lt a b = true → lt b c = true → lt a c = true)
    {x y z : List α} (h1 : lexLe lt x y = true) (h2 : lexLe lt y z = true) :
    lexLe lt x z = true := by
  simp only [lexLe, Bool.or_eq_true, decide_eq_true_eq] at h1 h2 ⊢
  rcases h1 with h1 | rfl
  · rcases h2 with h2 | rfl
    · exact Or.inl (lexLt_trans lt htr h1 h2)
    · exact Or.inl h1
  · exact h2

theorem lexLe_antisymm (lt : α → α → Bool) [DecidableEq α]
    (has : ∀ a b, lt a b = true → lt b a = true → False)
    {x y : List α} (h1 : lexLe lt x y = true) (h2 : lexLe lt y x = true) :
    x = y := by
  simp only [lexLe, Bool.or_eq_true, decide_eq_true_eq] at h1 h2
  rcases h1 with h1 | rfl
  · rcases h2 with h2 | rfl
    · exact absurd h2 (fun h2 => lexLt_asymm lt has h1 h2)
    · rfl
  · rfl

/-! ## Python 2 string comparison, embedded byte-wise -/

/-- Strict character order (codepoint order, matching byte order of the
Python 2 strings the caller compares). -/
def charLtB (a b : Char) : Bool := decide (a < b)

/-- Python 2 `<=` on strings. -/
def strLeB (a b : String) : Bool := lexLe charLtB a.data b.data

theorem charLtB_trans (a b c : Char) (h1 : charLtB a b = true)
    (h2 : charLtB b c = true) : charLtB a c = true := by
  simp only [charLtB, decide_eq_true_eq] at h1 h2 ⊢
  exact lt_trans h1 h2

theorem charLtB_asymm (a b : Char) (h1 : charLtB a b = true)
    (h2 : charLtB b a = true) : False := by
  simp only [charLtB, decide_eq_true_eq] at h1 h2
  exact absurd h2 (lt_asymm h1)

theorem strLeB_trans {a b c : String} (h1 : strLeB a b = true)
    (h2 : strLeB b c = true) : strLeB a c = true :=
  lexLe_trans charLtB charLtB_trans h1 h2

theorem strLeB_antisymm {a b : String} (h1 : strLeB a b = true)
    (h2 : strLeB b a = true) : a = b := by
  have hd : a.data = b.data := lexLe_antisymm charLtB charLtB_asymm h1 h2
  cases a
  cases b
  exact congrArg String.mk hd

/-! ## compare_orders (ensemble_caller.py lines 168-204)

`compare_orders(lists)` returns `check_lexico` on all lists OR `check_num` on
all lists.  `check_lexico` checks adjacent pairs under Python 2 string
comparison; `check_num` first splits every label with the regex
`([A-Za-z._]+)(\d+)|([A-Za-z._]+)|(\d+)` into match groups, converts the
digit groups to ints, and checks adjacent pairs of the resulting
list-of-group-lists under Python 2 list comparison (where `int < str` for
mixed types, since Python 2 orders distinct types by type name). -/

/-- One regex group after int conversion: either a converted digit run or a
kept alphabetic run (`int(...)` succeeds exactly on the digit groups). -/
inductive PyTok where
  | int (n : Nat)
  | str (s : String)
deriving DecidableEq

/-- Python 2 `<` on a pair of int-or-str values: ints by value, strings
byte-lexicographically, and any int below any str (type name order). -/
def pyTokLt : PyTok → PyTok → Bool
  | PyTok.int a, PyTok.int b => decide (a < b)
  | PyTok.int _, PyTok.str _ => true
  | PyTok.str _, PyTok.int _ => false
  | PyTok.str a, PyTok.str b => lexLt charLtB a.data b.data

/-- `<` on one label's group list (`l_split[i][j]` values are lists). -/
def pyListLt : List PyTok → List PyTok → Bool := lexLt pyTokLt

/-- `<` on a whole split label (`l_split[i]` is a list of group lists). -/
def pyOuterLt : List (List PyTok) → List (List PyTok) → Bool := lexLt pyListLt

/-- Python 2 `<=` on split labels: `<` or `==`. -/
def pyOuterLe (x y : List (List PyTok)) : Bool := lexLe pyListLt x y

theorem pyTokLt_trans (a b c : PyTok) (h1 : pyTokLt a b = true)
    (h2 : pyTokLt b c = true) : pyTokLt a c = true := by
  cases a <;> cases b <;> cases c
  case int.int.int =>
    simp only [pyTokLt, decide_eq_true_eq] at h1 h2 ⊢
    omega
  case int.int.str => rfl
  case int.str.int => simp [pyTokLt] at h2
  case int.str.str => rfl
  case str.int.int => simp [pyTokLt] at h1
  case str.int.str => simp [pyTokLt] at h1
  case str.str.int => simp [pyTokLt] at h2
  case str.str.str => exact lexLt_trans charLtB charLtB_trans h1 h2

theorem pyTokLt_asymm (a b : PyTok) (h1 : pyTokLt a b = true)
    (h2 : pyTokLt b a = true) : False := by
  cases a <;> cases b
  case int.int =>
    simp only [pyTokLt, decide_eq_true_eq] at h1 h2
    omega
  case int.str => simp [pyTokLt] at h2
  case str.int => simp [pyTokLt] at h1
  case str.str => exact lexLt_asymm charLtB charLtB_asymm h1 h2

theorem pyListLt_trans (a b c : List PyTok) (h1 : pyListLt a b = true)
    (h2 : pyListLt b c = true) : pyListLt a c = true :=
  lexLt_trans pyTokLt pyTokLt_trans h1 h2

theorem pyListLt_asymm (a b : List PyTok) (h1 : pyListLt a b = true)
    (h2 : pyListLt b a = true) : False :=
  lexLt_asymm pyTokLt pyTokLt_asymm h1 h2

theorem pyOuterLe_trans {x y z : List (List PyTok)}
    (h1 : pyOuterLe x y = true) (h2 : pyOuterLe y z = true) :
    pyOuterLe x z = true :=
  lexLe_trans pyListLt pyListLt_trans h1 h2

theorem pyOuterLe_antisymm {x y : List (List PyTok)}
    (h1 : pyOuterLe x y = true) (h2 : pyOuterLe y x = true) : x = y :=
  lexLe_antisymm pyListLt pyListLt_asymm h1 h2

/-! ### The regex split -/

/-- Characters of the regex class `[A-Za-z._]`. -/
def isWordChar (c : Char) : Bool := c.isAlpha || c = '.' || c = '_'

/-- Value of a digit run, as `int(...)` computes it (base 10, leading zeros
allowed). -/
def digitsToNat (cs : List Char) : Nat :=
  cs.foldl (fun n c => 10 * n + (c.toNat - 48)) 0

/-- One finished regex match: alternative 1 gives the pair
`[alpha-run, digit-run]`, alternatives 2/3 give a single run (the empty
unmatched groups are filtered out by the source before int conversion). -/
def flushGroup (al dg : List Char) : List PyTok :=
  (if al.isEmpty then [] else [PyTok.str (String.mk al)]) ++
    (if dg.isEmpty then [] else [PyTok.int (digitsToNat dg)])

/-- The pending (not yet finished) match, if any: the alpha run read so far
and the digit run read so far. -/
def flushState : Option (List Char × List Char) → List (List PyTok)
  | none => []
  | some (al, dg) => [flushGroup al dg]

/-- Left-to-right scan equivalent to `re.findall` with the source's pattern:
each match is a maximal alpha run optionally followed by a maximal digit run,
or a maximal digit run alone; characters outside both classes separate
matches. -/
def tokScan : List Char → Option (List Char × List Char) → List (List PyTok)
  | [], st => flushState st
  | c :: cs, st =>
    if isWordChar c then
      match st with
      | none => tokScan cs (some ([c], []))
      | some (al, []) => tokScan cs (some (al ++ [c], []))
      | some (al, dg) => flushGroup al dg :: tokScan cs (some ([c], []))
    else if c.isDigit then
      match st with
      | none => tokScan cs (some ([], [c]))
      | some (al, dg) => tokScan cs (some (al, dg ++ [c]))
    else
      flushState st ++ tokScan cs none

/-- The numeric-aware key of one label: the regex split of `str(s)` with the
digit groups converted to ints. -/
def numKey (s : String) : List (List PyTok) := tokScan s.data none

/-! ### The two sortedness checks and compare_orders -/

/-- Adjacent-pair check `all(le l[i] l[i+1] for i in range(len(l)-1))`. -/
def adjAll (le : α → α → Bool) : List α → Bool
  | [] => true
  | [_] => true
  | a :: b :: t => le a b && adjAll le (b :: t)

/-- `check_lexico(l)`: the labels are adjacent-sorted under string `<=`. -/
def check_lexico (l : List String) : Bool := adjAll strLeB l

/-- `check_num(l)`: the split labels are adjacent-sorted under Python 2 list
`<=`. -/
def check_num (l : List String) : Bool := adjAll pyOuterLe (l.map numKey)

/-- `compare_orders(lists)` (lines 168-204): all lists pass `check_lexico`,
or all lists pass `check_num`. -/
def compare_orders (lists : List (List String)) : Bool :=
  lists.all check_lexico || lists.all check_num

/-! ### Adjacent-sortedness machinery -/

theorem adjAll_cons_cons (le : α → α → Bool) (a b : α) (t : List α) :
    adjAll le (a :: b :: t) = (le a b && adjAll le (b :: t)) := rfl

theorem adjAll_iff_pairwise (le : α → α → Bool)
    (htr : ∀ a b c, le a b = true → le b c = true → le a c = true) :
    ∀ l : List α, adjAll le l = true ↔
      l.Pairwise (fun a b => le a b = true) := by
  intro l
  induction l with
  | nil => simp [adjAll]
  | cons a t ih =>
    cases t with
    | nil => simp [adjAll]
    | cons b t' =>
      rw [adjAll_cons_cons, Bool.and_eq_true, ih]
      constructor
      · rintro ⟨hab, hbt⟩
        rw [List.pairwise_cons]
        refine ⟨?_, hbt⟩
        have hb : ∀ x ∈ t', le b x = true :=
          (List.pairwise_cons.mp hbt).1
        intro x hx
        rcases List.mem_cons.mp hx with rfl | hx
        · exact hab
        · exact htr _ _ _ hab (hb x hx)
      · intro h
        have h2 := List.pairwise_cons.mp h
        exact ⟨h2.1 b (List.mem_cons_self b t'), h2.2⟩

theorem adjAll_sublist (le : α → α → Bool)
    (htr : ∀ a b c, le a b = true → le b c = true → le a c = true)
    {l l' : List α} (hs : List.Sublist l' l) (h : adjAll le l = true) :
    adjAll le l' = true := by
  rw [adjAll_iff_pairwise le htr] at h ⊢
  exact h.sublist hs

/-! ### Claims C4, C5, C6, C9 -/

/-- Claim C4, corrected, counterexample: the reflexivity claim fails on the
code for the distinct-label list `["B", "A"]` — `compare_orders` only checks
each list's own sortedness, so a pair of identical unsorted lists is reported
inconsistent. -/
theorem compare_orders_refl_cex :
    (["B", "A"] : List String).Nodup ∧
      compare_orders [["B", "A"], ["B", "A"]] = false := by
  constructor
  · decide
  · decide

/-- Claim C4, amended: `compare_orders []` is consistent, and for every list
`l` that is itself sorted under at least one of the two schemes
(lexicographic `check_lexico` or numeric-aware `check_num`),
`compare_orders [l, l]` and `compare_orders [l]` are consistent. -/
theorem compare_orders_refl (l : List String)
    (h : check_lexico l = true ∨ check_num l = true) :
    compare_orders [l, l] = true ∧ compare_orders [l] = true ∧
      compare_orders [] = true := by
  rcases h with h | h <;>
    simp [compare_orders, h]

/-- Witness for the amended claim C4 at the sorted list `["A", "B"]`. -/
theorem compare_orders_refl_witness :
    (check_lexico ["A", "B"] = true ∨ check_num ["A", "B"] = true) ∧
      (compare_orders [["A", "B"], ["A", "B"]] = true ∧
        compare_orders [["A", "B"]] = true ∧ compare_orders [] = true) :=
  ⟨Or.inl (by decide), compare_orders_refl ["A", "B"] (Or.inl (by decide))⟩

/-- Claim C5, corrected, counterexample: the three labels `"a1"`, `"a2"`,
`"a02"` are pairwise distinct, yet `compare_orders` reports the swapped pair
of sequences as consistent, because `"a2"` and `"a02"` have the same
numeric-aware key `[["a", 2]]` and both sequences pass `check_num`. -/
theorem compare_orders_swap_cex :
    (("a1" : String) ≠ "a2" ∧ ("a1" : String) ≠ "a02" ∧
      ("a2" : String) ≠ "a02") ∧
      compare_orders [["a1", "a2", "a02"], ["a1", "a02", "a2"]] = true := by
  constructor
  · exact ⟨by decide, by decide, by decide⟩
  · decide

/-- Claim C5, amended: for pairwise-distinct labels `A`, `B`, `C`,
`compare_orders [[A, B, C], [A, C, B]]` is inconsistent provided `B` and `C`
do not collide under the numeric-aware scheme with `A` at-or-below them
(i.e. it is not the case that `numKey B = numKey C` with
`pyOuterLe (numKey A) (numKey B)`). -/
theorem compare_orders_swap (A B C : String) (hAB : A ≠ B) (hAC : A ≠ C)
    (hBC : B ≠ C)
    (hnum : ¬ (numKey B = numKey C ∧ pyOuterLe (numKey A) (numKey B) = true)) :
    compare_orders [[A, B, C], [A, C, B]] = false := by
  rw [Bool.eq_false_iff]
  intro hT
  rw [compare_orders, Bool.or_eq_true] at hT
  rcases hT with hT | hT
  · rw [List.all_cons, List.all_cons, Bool.and_eq_true, Bool.and_eq_true] at hT
    have h1 := hT.1
    have h2 := hT.2.1
    rw [check_lexico, adjAll_cons_cons, Bool.and_eq_true, adjAll_cons_cons,
      Bool.and_eq_true] at h1 h2
    exact hBC (strLeB_antisymm h1.2.1 h2.2.1)
  · rw [List.all_cons, List.all_cons, Bool.and_eq_true, Bool.and_eq_true] at hT
    have h1 := hT.1
    have h2 := hT.2.1
    rw [check_num, List.map_cons, List.map_cons, List.map_cons, List.map_nil,
      adjAll_cons_cons, Bool.and_eq_true, adjAll_cons_cons,
      Bool.and_eq_true] at h1 h2
    exact hnum ⟨pyOuterLe_antisymm h1.2.1 h2.2.1, h1.1⟩

/-- Witness for the amended claim C5 at the labels `"A"`, `"B"`, `"C"`. -/
theorem compare_orders_swap_witness :
    (("A" : String) ≠ "B" ∧ ("A" : String) ≠ "C" ∧ ("B" : String) ≠ "C" ∧
      ¬ (numKey "B" = numKey "C" ∧
        pyOuterLe (numKey "A") (numKey "B") = true)) ∧
      compare_orders [["A", "B", "C"], ["A", "C", "B"]] = false :=
  ⟨⟨by decide, by decide, by decide, by decide⟩,
    compare_orders_swap "A" "B" "C" (by decide) (by decide) (by decide)
      (by decide)⟩

/-- Claim C6: omission monotonicity — replacing any one order sequence by any
subsequence of itself preserves a consistent verdict, since adjacent
sortedness under either (transitive) scheme is inherited by sublists and the
other sequences are untouched. -/
theorem compare_orders_sublist (L1 L2 : List (List String))
    (l l' : List String) (hsub : List.Sublist l' l)
    (h : compare_orders (L1 ++ l :: L2) = true) :
    compare_orders (L1 ++ l' :: L2) = true := by
  simp only [compare_orders, Bool.or_eq_true, List.all_append, List.all_cons,
    Bool.and_eq_true] at h ⊢
  rcases h with ⟨h1, h2, h3⟩ | ⟨h1, h2, h3⟩
  · exact Or.inl ⟨h1, adjAll_sublist strLeB (fun _ _ _ => strLeB_trans) hsub h2, h3⟩
  · refine Or.inr ⟨h1, ?_, h3⟩
    exact adjAll_sublist pyOuterLe (fun _ _ _ => pyOuterLe_trans)
      (hsub.map numKey) h2

/-- Witness for claim C6: `[A, B, C]` paired with itself is consistent, and
dropping `B` from the second copy keeps it consistent. -/
theorem compare_orders_sublist_witness :
    List.Sublist (["A", "C"] : List String) ["A", "B", "C"] ∧
      compare_orders [["A", "B", "C"], ["A", "B", "C"]] = true ∧
      compare_orders [["A", "B", "C"], ["A", "C"]] = true := by
  refine ⟨by decide, by decide, ?_⟩
  exact compare_orders_sublist [["A", "B", "C"]] [] ["A", "B", "C"] ["A", "C"]
    (by decide) (by decide)

/-- Claim C9: `compare_orders` is total — on every input it returns one of the
two booleans; order inconsistency is reported as `false`, never as an
exception (in the source the only fallible call, `int(...)`, is wrapped in a
`try/except ValueError`, and every other operation is total). -/
theorem compare_orders_total (lists : List (List String)) :
    compare_orders lists = true ∨ compare_orders lists = false := by
  cases h : compare_orders lists
  · exact Or.inr rfl
  · exact Or.inl rfl

/-! ## parse_order (ensemble_caller.py lines 134-165)

The order extractor iterates the records once, keeping the insertion-ordered
set `chroms_seen`, the previous chromosome and the position watermark
`pos_prev`.  A chromosome reappearing after its run closed raises; a position
below the watermark raises; note that the source resets the watermark to `0`
(not to the opening record's position) when a run opens. -/

/-- The exception raised by `parse_order`, carrying the offending chromosome
(and, for position disorder, the offending position). -/
inductive NotSortedException where
  | multipleBlocks (chrom : String)
  | unsortedPositions (chrom : String) (pos : Nat)
deriving DecidableEq

/-- The loop of `parse_order` (lines 150-164): `seen` is `chroms_seen` in
insertion order, `chrom_prev` and `pos_prev` the loop state. -/
def parse_order_loop (seen : List String) (chrom_prev : Option String)
    (pos_prev : Nat) : List VCFRecord → Except NotSortedException (List String)
  | [] => Except.ok seen
  | r :: rest =>
    if some r.CHROM ≠ chrom_prev then
      if r.CHROM ∈ seen then
        Except.error (NotSortedException.multipleBlocks r.CHROM)
      else
        parse_order_loop (seen ++ [r.CHROM]) (some r.CHROM) 0 rest
    else
      if r.POS < pos_prev then
        Except.error (NotSortedException.unsortedPositions r.CHROM r.POS)
      else
        parse_order_loop seen chrom_prev r.POS rest

/-- `parse_order(vcf_file)` (lines 134-165) over the file's record list. -/
def parse_order (recs : List VCFRecord) :
    Except NotSortedException (List String) :=
  parse_order_loop [] none 0 recs

/-- The labels of the runs following a current run of `c`: consecutive
duplicates of the current run label are dropped, a new label opens a run. -/
def runTail (c : String) : List String → List String
  | [] => []
  | d :: t => if d = c then runTail c t else d :: runTail d t

/-- Chromosome labels with consecutive duplicates collapsed: one label per
contiguous run, in first-seen order. -/
def runLabels : List String → List String
  | [] => []
  | c :: t => c :: runTail c t

/-- Adjacent records on the same chromosome have non-decreasing positions
(the claim's position-monotonicity hypothesis, per contiguous run). -/
def posMonotone : List VCFRecord → Bool
  | [] => true
  | [_] => true
  | a :: b :: t =>
    (if a.CHROM = b.CHROM then decide (a.POS ≤ b.POS) else true) &&
      posMonotone (b :: t)

theorem posMonotone_tail {a : VCFRecord} {l : List VCFRecord}
    (h : posMonotone (a :: l) = true) : posMonotone l = true := by
  cases l with
  | nil => rfl
  | cons b t =>
    rw [posMonotone, Bool.and_eq_true] at h
    exact h.2

theorem posMonotone_head {a b : VCFRecord} {t : List VCFRecord}
    (h : posMonotone (a :: b :: t) = true) (hc : a.CHROM = b.CHROM) :
    a.POS ≤ b.POS := by
  rw [posMonotone, Bool.and_eq_true, if_pos hc] at h
  exact of_decide_eq_true h.1

theorem mem_cons_runTail (x : String) :
    ∀ (l : List String) (c : String), x ∈ c :: runTail c l ↔ x ∈ c :: l := by
  intro l
  induction l with
  | nil => intro c; rfl
  | cons d t ih =>
    intro c
    simp only [runTail]
    by_cases h : d = c
    · rw [if_pos h]
      subst h
      rw [ih d]
      simp only [List.mem_cons]
      tauto
    · rw [if_neg h]
      constructor
      · intro hx
        rcases List.mem_cons.mp hx with rfl | hx
        · exact List.mem_cons_self _ _
        · exact List.mem_cons_of_mem _ ((ih d).mp hx)
      · intro hx
        rcases List.mem_cons.mp hx with rfl | hx
        · exact List.mem_cons_self _ _
        · exact List.mem_cons_of_mem _ ((ih d).mpr hx)

theorem runLabels_mem (x : String) (l : List String) :
    x ∈ runLabels l ↔ x ∈ l := by
  cases l with
  | nil => rfl
  | cons c t => exact mem_cons_runTail x t c

/-- Main loop invariant of the order extractor on well-formed remainders:
no exception is raised and the run labels are appended to `seen`. -/
theorem parse_order_loop_ok :
    ∀ (rest : List VCFRecord) (seen : List String) (c : String) (p : Nat),
      (∀ x ∈ rest.map VCFRecord.CHROM, x ∈ seen → x = c) →
      (c :: runTail c (rest.map VCFRecord.CHROM)).Nodup →
      (∀ r, rest.head? = some r → r.CHROM = c → p ≤ r.POS) →
      posMonotone rest = true →
      parse_order_loop seen (some c) p rest =
        Except.ok (seen ++ runTail c (rest.map VCFRecord.CHROM)) := by
  intro rest
  induction rest with
  | nil =>
    intro seen c p _ _ _ _
    simp [parse_order_loop, runTail]
  | cons r rest ih =>
    intro seen c p hseen hnd hpos hmono
    by_cases hc : r.CHROM = c
    · have hneq : ¬ (some r.CHROM ≠ some c) := by simp [hc]
      rw [parse_order_loop, if_neg hneq,
        if_neg (Nat.not_lt.mpr (hpos r rfl hc))]
      rw [List.map_cons, runTail, if_pos hc] at hnd ⊢
      refine ih seen c r.POS ?_ hnd ?_ (posMonotone_tail hmono)
      · intro x hx hxs
        exact hseen x (by rw [List.map_cons]; exact List.mem_cons_of_mem _ hx) hxs
      · intro r' hr' hcr'
        cases rest with
        | nil => simp at hr'
        | cons r2 t =>
          obtain rfl : r2 = r' := by simpa using hr'
          exact posMonotone_head hmono (hc.trans hcr'.symm)
    · have hneq : some r.CHROM ≠ some c := by simp [hc]
      have hnotin : r.CHROM ∉ seen := by
        intro hin
        exact hc (hseen r.CHROM
          (by rw [List.map_cons]; exact List.mem_cons_self _ _) hin)
      rw [parse_order_loop, if_pos hneq, if_neg hnotin]
      rw [List.map_cons, runTail, if_neg hc] at hnd ⊢
      have hcnot : c ∉ rest.map VCFRecord.CHROM := by
        intro hmem
        have h1 : c ∉ r.CHROM :: runTail r.CHROM (rest.map VCFRecord.CHROM) :=
          (List.nodup_cons.mp hnd).1
        exact h1 ((mem_cons_runTail c (rest.map VCFRecord.CHROM) r.CHROM).mpr
          (List.mem_cons_of_mem _ hmem))
      have := ih (seen ++ [r.CHROM]) r.CHROM 0 ?_ ?_ ?_ (posMonotone_tail hmono)
      · rw [this, List.append_assoc, List.singleton_append]
      · intro x hx hxs
        rcases List.mem_append.mp hxs with hxs | hxs
        · exact absurd (hseen x
            (by rw [List.map_cons]; exact List.mem_cons_of_mem _ hx) hxs ▸ hx)
            (by intro h; exact hcnot h)
        · simpa using hxs
      · exact (List.nodup_cons.mp hnd).2
      · intro r' _ _
        exact Nat.zero_le _

/-- Claim C2, code-bug evaluation: a single-chromosome stream with positions
5 then 3 violates position monotonicity, yet `parse_order` returns the run
list without raising — at a run's opening record the watermark is reset to 0
instead of that record's position, so the inversion between the first and
second record of a run is never checked, contradicting the docstring
"Raises a NotSortedException when two consecutive records from the same
chromosome aren't in order". -/
theorem parse_order_misses_first_pair :
    parse_order [⟨"1", 5, "A", ["T"]⟩, ⟨"1", 3, "A", ["T"]⟩] =
      Except.ok ["1"] := rfl

/-- Claim C3: on a stream whose contiguous same-chromosome runs have
non-decreasing positions and whose run labels are pairwise distinct,
`parse_order` returns (without raising) the distinct chromosome labels in
first-seen order, with no duplicates, and with length equal to the number of
distinct chromosomes in the stream. -/
theorem parse_order_sorted (recs : List VCFRecord)
    (hmono : posMonotone recs = true)
    (hruns : (runLabels (recs.map VCFRecord.CHROM)).Nodup) :
    parse_order recs =
        Except.ok (runLabels (recs.map VCFRecord.CHROM)) ∧
      (runLabels (recs.map VCFRecord.CHROM)).Nodup ∧
      (runLabels (recs.map VCFRecord.CHROM)).length =
        (recs.map VCFRecord.CHROM).toFinset.card := by
  have hmain : parse_order recs =
      Except.ok (runLabels (recs.map VCFRecord.CHROM)) := by
    cases recs with
    | nil => rfl
    | cons r rest =>
      have hne : some r.CHROM ≠ (none : Option String) := by simp
      have hnotin : r.CHROM ∉ ([] : List String) := by simp
      rw [parse_order, parse_order_loop, if_pos hne, if_neg hnotin,
        List.nil_append]
      have hnd : (r.CHROM :: runTail r.CHROM (rest.map VCFRecord.CHROM)).Nodup := by
        rw [List.map_cons, runLabels] at hruns
        exact hruns
      rw [parse_order_loop_ok rest [r.CHROM] r.CHROM 0
        (fun x _ hxs => by simpa using hxs) hnd
        (fun r' _ _ => Nat.zero_le _) (posMonotone_tail hmono)]
      rw [List.map_cons, runLabels, List.singleton_append]
  refine ⟨hmain, hruns, ?_⟩
  have hset : (runLabels (recs.map VCFRecord.CHROM)).toFinset =
      (recs.map VCFRecord.CHROM).toFinset := by
    apply Finset.ext
    intro x
    simp [List.mem_toFinset, runLabels_mem]
  rw [← hset]
  exact (List.toFinset_card_of_nodup hruns).symm

/-- Witness for claim C3 at a three-record, two-chromosome sorted stream. -/
theorem parse_order_sorted_witness :
    (posMonotone [⟨"1", 1, "A", ["T"]⟩, ⟨"1", 5, "C", ["G"]⟩,
        ⟨"2", 3, "T", ["A"]⟩] = true ∧
      (runLabels ([⟨"1", 1, "A", ["T"]⟩, ⟨"1", 5, "C", ["G"]⟩,
        ⟨"2", 3, "T", ["A"]⟩].map VCFRecord.CHROM)).Nodup) ∧
      (parse_order [⟨"1", 1, "A", ["T"]⟩, ⟨"1", 5, "C", ["G"]⟩,
          ⟨"2", 3, "T", ["A"]⟩] =
          Except.ok (runLabels ([⟨"1", 1, "A", ["T"]⟩, ⟨"1", 5, "C", ["G"]⟩,
            ⟨"2", 3, "T", ["A"]⟩].map VCFRecord.CHROM)) ∧
        (runLabels ([⟨"1", 1, "A", ["T"]⟩, ⟨"1", 5, "C", ["G"]⟩,
          ⟨"2", 3, "T", ["A"]⟩].map VCFRecord.CHROM)).Nodup ∧
        (runLabels ([⟨"1", 1, "A", ["T"]⟩, ⟨"1", 5, "C", ["G"]⟩,
          ⟨"2", 3, "T", ["A"]⟩].map VCFRecord.CHROM)).length =
          ([⟨"1", 1, "A", ["T"]⟩, ⟨"1", 5, "C", ["G"]⟩,
            ⟨"2", 3, "T", ["A"]⟩].map VCFRecord.CHROM).toFinset.card) :=
  ⟨⟨by decide, by decide⟩,
    parse_order_sorted [⟨"1", 1, "A", ["T"]⟩, ⟨"1", 5, "C", ["G"]⟩,
      ⟨"2", 3, "T", ["A"]⟩] (by decide) (by decide)⟩

/-! ## extract_names (ensemble_caller.py lines 221-242)

The name extractor loops over `enumerate(vcf_files, 1)`.  Per file it tries
`vcf.metadata["source"][0]` with only `KeyError` caught (set `name = ""`);
a present `"source"` entry that is an empty sequence therefore raises an
uncaught `IndexError` at the `[0]` subscript.  An empty name is replaced by
the positional fallback `"method_<i>"`. -/

/-- The metadata of one VCF reader, restricted to the `"source"` entry the
name extractor reads: `none` models an absent key (the lookup raises
`KeyError`), `some l` a present key mapping to the header value list `l`. -/
structure VCFMeta where
  source : Option (List String)
deriving DecidableEq

/-- The uncaught Python error that `extract_names` can raise. -/
inductive PyError where
  | indexError
deriving DecidableEq

/-- `vcf.metadata["source"][0]` guarded by `except KeyError: name = ""`
(lines 234-237). -/
def sourceName (m : VCFMeta) : Except PyError String :=
  match m.source with
  | none => Except.ok ""
  | some [] => Except.error PyError.indexError
  | some (n :: _) => Except.ok n

/-- The loop of `extract_names` (lines 231-242), with `i` the 1-based
position from `enumerate(vcf_files, 1)`. -/
def extract_names_from (i : Nat) : List VCFMeta → Except PyError (List String)
  | [] => Except.ok []
  | m :: rest =>
    match sourceName m with
    | Except.error e => Except.error e
    | Except.ok name =>
      match extract_names_from (i + 1) rest with
      | Except.error e => Except.error e
      | Except.ok names =>
        Except.ok ((if name = "" then "method_" ++ toString i else name) :: names)

/-- `extract_names(vcf_files)` over the files' metadata. -/
def extract_names (files : List VCFMeta) : Except PyError (List String) :=
  extract_names_from 1 files

/-- Whether a file's metadata maps `"source"` to an empty sequence (the
`IndexError` case). -/
def isEmptySource (m : VCFMeta) : Bool :=
  match m.source with
  | some [] => true
  | _ => false

/-- Whether some file's metadata maps `"source"` to an empty sequence. -/
def hasEmptySource (files : List VCFMeta) : Bool := files.any isEmptySource

/-- The name computed for 1-based position `i` when no `IndexError` occurs:
the declared first source element when present and non-empty, else the
positional fallback label. -/
def fallbackOrName (i : Nat) (m : VCFMeta) : String :=
  match m.source with
  | some (n :: _) => if n = "" then "method_" ++ toString i else n
  | _ => "method_" ++ toString i

/-- The expected name list starting at 1-based position `i`. -/
def expectedNames (i : Nat) : List VCFMeta → List String
  | [] => []
  | m :: rest => fallbackOrName i m :: expectedNames (i + 1) rest

theorem hasEmptySource_cons (m : VCFMeta) (rest : List VCFMeta) :
    hasEmptySource (m :: rest) = (isEmptySource m || hasEmptySource rest) := rfl

theorem extract_names_from_spec :
    ∀ (files : List VCFMeta) (i : Nat),
      extract_names_from i files =
        if hasEmptySource files = true then Except.error PyError.indexError
        else Except.ok (expectedNames i files) := by
  intro files
  induction files with
  | nil =>
    intro i
    simp [extract_names_from, hasEmptySource, expectedNames]
  | cons m rest ih =>
    intro i
    obtain ⟨src⟩ := m
    cases src with
    | none =>
      cases he : hasEmptySource rest with
      | true =>
        simp [extract_names_from, sourceName, ih, he, hasEmptySource_cons,
          isEmptySource]
      | false =>
        simp [extract_names_from, sourceName, ih, he, hasEmptySource_cons,
          isEmptySource, expectedNames, fallbackOrName]
    | some l =>
      cases l with
      | nil =>
        simp [extract_names_from, sourceName, hasEmptySource_cons,
          isEmptySource]
      | cons n t =>
        cases he : hasEmptySource rest with
        | true =>
          simp [extract_names_from, sourceName, ih, he, hasEmptySource_cons,
            isEmptySource]
        | false =>
          simp [extract_names_from, sourceName, ih, he, hasEmptySource_cons,
            isEmptySource, expectedNames, fallbackOrName]

theorem expectedNames_length :
    ∀ (files : List VCFMeta) (i : Nat),
      (expectedNames i files).length = files.length := by
  intro files
  induction files with
  | nil => intro i; rfl
  | cons m rest ih =>
    intro i
    simp [expectedNames, ih]

theorem expectedNames_getElem :
    ∀ (files : List VCFMeta) (j i : Nat) (hi : i < files.length),
      (expectedNames j files).get? i =
        some (fallbackOrName (j + i) (files.get ⟨i, hi⟩)) := by
  intro files
  induction files with
  | nil =>
    intro j i hi
    simp at hi
  | cons m rest ih =>
    intro j i hi
    cases i with
    | zero => rfl
    | succ i =>
      have hi' : i < rest.length := by simpa using hi
      have := ih (j + 1) i hi'
      simpa [expectedNames, Nat.add_assoc, Nat.add_comm 1 i] using this

/-- Claim C10: the fallback label is substituted exactly when the metadata
lacks the `"source"` key or the entry's first element is the empty string
(per `fallbackOrName`), and a present `"source"` entry that is an empty
sequence makes `extract_names` fail with an uncaught `IndexError` instead of
producing any fallback. -/
theorem extract_names_fallback_spec (files : List VCFMeta) :
    extract_names files =
      if hasEmptySource files = true then Except.error PyError.indexError
      else Except.ok (expectedNames 1 files) :=
  extract_names_from_spec files 1

/-- `true` iff `extract_names` returns a name list rather than raising. -/
def returnsNames (files : List VCFMeta) : Bool :=
  match extract_names files with
  | Except.ok _ => true
  | Except.error _ => false

/-- Claim C8, corrected, counterexample: on a stream whose metadata maps
`"source"` to the empty sequence, `extract_names` raises an uncaught
`IndexError` and returns no list at all. -/
theorem extract_names_cex : returnsNames [⟨some []⟩] = false := rfl

/-- Claim C8, amended: for every list of streams in which no present
`"source"` entry is an empty sequence, `extract_names` returns a list of the
same length whose `i`-th entry (1-based `i`) is the stream's declared source
name when present and non-empty, and otherwise the positional fallback label
`"method_<i>"`. -/
theorem extract_names_ok (files : List VCFMeta)
    (h : hasEmptySource files = false) :
    ∃ names, extract_names files = Except.ok names ∧
      names.length = files.length ∧
      ∀ i (hi : i < files.length),
        names.get? i = some (fallbackOrName (i + 1) (files.get ⟨i, hi⟩)) := by
  refine ⟨expectedNames 1 files, ?_, expectedNames_length files 1, ?_⟩
  · show extract_names_from 1 files = _
    rw [extract_names_from_spec files 1, h]
    simp
  · intro i hi
    have := expectedNames_getElem files 1 i hi
    simpa [Nat.add_comm 1 i] using this

/-- Witness for the amended claim C8 at three streams: a declared name, an
absent `"source"` key, and a present key with an empty first element. -/
theorem extract_names_ok_witness :
    hasEmptySource [⟨some ["strelka"]⟩, ⟨none⟩, ⟨some [""]⟩] = false ∧
      ∃ names,
        extract_names [⟨some ["strelka"]⟩, ⟨none⟩, ⟨some [""]⟩] =
            Except.ok names ∧
          names.length =
            ([⟨some ["strelka"]⟩, ⟨none⟩, ⟨some [""]⟩] : List VCFMeta).length ∧
          ∀ i (hi : i <
              ([⟨some ["strelka"]⟩, ⟨none⟩, ⟨some [""]⟩] : List VCFMeta).length),
            names.get? i = some (fallbackOrName (i + 1)
              (([⟨some ["strelka"]⟩, ⟨none⟩, ⟨some [""]⟩] :
                List VCFMeta).get ⟨i, hi⟩)) :=
  ⟨rfl, extract_names_ok [⟨some ["strelka"]⟩, ⟨none⟩, ⟨some [""]⟩] rfl⟩

/-! ## reset_vcf_files (ensemble_caller.py lines 93-102)

Modelled from the spec: the pyvcf `Reader` internals that the reset
manipulates (the underlying seekable file object, the stripped-line
generator, `_parse_metainfo`) belong to the external pyvcf dependency, not
to this repository.  Per the spec (§3 Record Stream, §4.3, §6) a record
stream is an ordered, restartable sequence of records plus parsed metadata;
it is modelled as the fixed list of the file's data records, the parsed
metadata, and a read cursor.  `reset_vcf_files` seeks the underlying file
back to offset 0 and re-parses the meta-information of the same bytes
(hence the same metadata), leaving the cursor at the first data record. -/

structure VCFReader where
  fileRecords : List VCFRecord
  metadata : List (String × List String)
  cursor : Nat
deriving DecidableEq

/-- One `next(reader)` pull: the record at the cursor, if any, and the
advanced reader. -/
def readRecord (v : VCFReader) : Option VCFRecord × VCFReader :=
  match v.fileRecords.get? v.cursor with
  | some r => (some r, { v with cursor := v.cursor + 1 })
  | none => (none, v)

/-- `k` successive pulls, keeping the final reader state. -/
def readSkip : Nat → VCFReader → VCFReader
  | 0, v => v
  | k + 1, v => readSkip k (readRecord v).2

/-- Reset of one reader: seek to 0, recreate the line generator and re-parse
the meta-information, landing on the first data record with the metadata
unchanged. -/
def resetReader (v : VCFReader) : VCFReader :=
  { fileRecords := v.fileRecords, metadata := v.metadata, cursor := 0 }

/-- `reset_vcf_files(vcf_files)` (lines 93-102) resets every reader of the
list in place. -/
def reset_vcf_files (vcf_files : List VCFReader) : List VCFReader :=
  vcf_files.map resetReader

theorem readRecord_preserves (v : VCFReader) :
    (readRecord v).2.fileRecords = v.fileRecords ∧
      (readRecord v).2.metadata = v.metadata := by
  rw [readRecord]
  cases hv : v.fileRecords.get? v.cursor <;> simp

theorem readSkip_preserves : ∀ (k : Nat) (v : VCFReader),
    (readSkip k v).fileRecords = v.fileRecords ∧
      (readSkip k v).metadata = v.metadata := by
  intro k
  induction k with
  | zero => intro v; exact ⟨rfl, rfl⟩
  | succ k ih =>
    intro v
    rw [readSkip]
    obtain ⟨h1, h2⟩ := ih (readRecord v).2
    obtain ⟨h3, h4⟩ := readRecord_preserves v
    exact ⟨h1.trans h3, h2.trans h4⟩

/-- Claim C7, over the spec model: after `k ≥ 1` reads from a fresh reader
(possibly to exhaustion), `reset_vcf_files` followed by a read yields exactly
the record the original first read returned (hence equal chromosome and
position), with the already-parsed metadata preserved. -/
theorem reset_vcf_files_roundtrip (v : VCFReader) (k : Nat)
    (hfresh : v.cursor = 0) (hk : 1 ≤ k) :
    reset_vcf_files [readSkip k v] = [resetReader (readSkip k v)] ∧
      (readRecord (resetReader (readSkip k v))).1 = (readRecord v).1 ∧
      (resetReader (readSkip k v)).metadata = v.metadata := by
  obtain ⟨h1, h2⟩ := readSkip_preserves k v
  refine ⟨rfl, ?_, h2⟩
  simp only [readRecord, resetReader, h1, hfresh]
  cases hv : v.fileRecords.get? 0 <;> simp

/-- Witness for claim C7: one read consumes the single-record stream, and a
reset followed by a read returns that first record again. -/
theorem reset_vcf_files_roundtrip_witness :
    ((⟨[⟨"1", 7, "A", ["T"]⟩], [("source", ["strelka"])], 0⟩ :
        VCFReader).cursor = 0 ∧ (1 : Nat) ≤ 1) ∧
      (reset_vcf_files
          [readSkip 1 ⟨[⟨"1", 7, "A", ["T"]⟩], [("source", ["strelka"])], 0⟩] =
          [resetReader
            (readSkip 1 ⟨[⟨"1", 7, "A", ["T"]⟩], [("source", ["strelka"])], 0⟩)] ∧
        (readRecord (resetReader
            (readSkip 1 ⟨[⟨"1", 7, "A", ["T"]⟩],
              [("source", ["strelka"])], 0⟩))).1 =
          (readRecord
            (⟨[⟨"1", 7, "A", ["T"]⟩], [("source", ["strelka"])], 0⟩ :
              VCFReader)).1 ∧
        (resetReader
            (readSkip 1 ⟨[⟨"1", 7, "A", ["T"]⟩],
              [("source", ["strelka"])], 0⟩)).metadata =
          (⟨[⟨"1", 7, "A", ["T"]⟩], [("source", ["strelka"])], 0⟩ :
            VCFReader).metadata) :=
  ⟨⟨rfl, by decide⟩,
    reset_vcf_files_roundtrip
      ⟨[⟨"1", 7, "A", ["T"]⟩], [("source", ["strelka"])], 0⟩ 1 rfl (by decide)⟩

/-! ## create_vcf_walktogether (ensemble_caller.py lines 207-218)

Modelled from the spec: `create_vcf_walktogether` delegates to
`vcf.utils.walk_together` of the external pyvcf dependency, which is not part
of this repository; the walker is modelled from the spec's §4.4 algorithm:
one read cursor per stream, at each step the minimum key among the buffered
records is computed, a tuple is emitted whose slot `i` holds stream `i`'s
buffered record exactly when its key equals the minimum, every consumed
stream is re-buffered, and the walk ends when all streams are exhausted.
The sort key is the source's `vcf_record_sort_key`:
`(r.CHROM, r.POS, r.REF, r.ALT)`, compared as Python compares tuples
(lexicographically by component).

The development is parametric in a strict-order comparison
`ltK : K → K → Bool`; the walk recurses on a fuel bounded by the total
record count (each step consumes at least one record). -/

section Walker

variable {R K : Type} [DecidableEq K] (key : R → K) (ltK : K → K → Bool)

/-- Binary minimum under `ltK` (`min(a, b)` over the active order). -/
def minK (a b : K) : K := if ltK b a then b else a

/-- The minimum key among the buffered (head) records of all streams, if any
stream is non-empty. -/
def minKeyOf : List (List R) → Option K
  | [] => none
  | s :: rest =>
    match s.head?, minKeyOf rest with
    | none, m => m
    | some r, none => some (key r)
    | some r, some m => some (minK ltK (key r) m)

/-- Slot of one stream in the emitted tuple for minimum key `m`: the buffered
record if its key equals `m`, else the absence marker. -/
def slotOne (m : K) (s : List R) : Option R :=
  match s.head? with
  | some r => if key r = m then some r else none
  | none => none

/-- The aligned tuple emitted for minimum key `m`. -/
def emitRow (m : K) (streams : List (List R)) : List (Option R) :=
  streams.map (slotOne key m)

/-- Advance one stream past its buffered record when that record was
consumed this step. -/
def advanceOne (m : K) : List R → List R
  | [] => []
  | r :: t => if key r = m then t else r :: t

/-- Advance every stream whose buffered record was consumed this step. -/
def advanceStreams (m : K) (streams : List (List R)) : List (List R) :=
  streams.map (advanceOne key m)

/-- Total number of records still buffered or unread. -/
def lengthSum (streams : List (List R)) : Nat := (streams.map List.length).sum

/-- The walk, driven by a fuel that bounds the number of steps. -/
def walkAux : Nat → List (List R) → List (List (Option R))
  | 0, _ => []
  | fuel + 1, streams =>
    match minKeyOf key ltK streams with
    | none => []
    | some m => emitRow key m streams :: walkAux fuel (advanceStreams key m streams)

/-- The walk-together sequence over the given streams. -/
def walkTogether (streams : List (List R)) : List (List (Option R)) :=
  walkAux key ltK (lengthSum streams) streams

/-- The records emitted in slot `i` across all tuples, in emission order. -/
def slotRecords (i : Nat) (rows : List (List (Option R))) : List R :=
  rows.filterMap (fun row => Option.bind (row.get? i) id)

/-- The records populated in one tuple. -/
def rowRecs (row : List (Option R)) : List R := row.filterMap id

/-- The stream's records have strictly increasing keys under `ltK` (the
claim's per-stream sortedness hypothesis). -/
def strictIncBy : List R → Bool
  | [] => true
  | [_] => true
  | a :: b :: t => ltK (key a) (key b) && strictIncBy (b :: t)

end Walker

section WalkerLemmas

variable {R K : Type} [DecidableEq K] {key : R → K} {ltK : K → K → Bool}

theorem minK_choice (ltK : K → K → Bool) (a b : K) :
    minK ltK a b = a ∨ minK ltK a b = b := by
  rw [minK]
  by_cases h : ltK b a = true
  · exact Or.inr (if_pos h)
  · exact Or.inl (if_neg h)

theorem minK_not_lt (hasym : ∀ a b, ltK a b = true → ltK b a = true → False)
    (a b : K) :
    ltK a (minK ltK a b) = false ∧ ltK b (minK ltK a b) = false := by
  have hirr : ∀ c, ltK c c = false := by
    intro c
    cases hc : ltK c c
    · rfl
    · exact absurd hc (fun hc => hasym c c hc hc)
  rw [minK]
  by_cases h : ltK b a = true
  · rw [if_pos h]
    refine ⟨?_, hirr b⟩
    cases hab : ltK a b
    · rfl
    · exact absurd hab (fun hab => hasym a b hab h)
  · rw [if_neg h]
    refine ⟨hirr a, ?_⟩
    cases hba : ltK b a
    · rfl
    · exact absurd hba h

theorem minKeyOf_eq_none {ss : List (List R)}
    (h : minKeyOf key ltK ss = none) : ∀ s ∈ ss, s = [] := by
  induction ss with
  | nil => intro s hs; simp at hs
  | cons s0 rest ih =>
    intro s hs
    rw [minKeyOf] at h
    rcases List.mem_cons.mp hs with rfl | hs
    · cases hh : s.head? with
      | none => exact List.head?_eq_none_iff.mp hh
      | some r =>
        rw [hh] at h
        cases hm : minKeyOf key ltK rest <;> rw [hm] at h <;> simp at h
    · cases hh : s0.head? with
      | none =>
        rw [hh] at h
        exact ih h s hs
      | some r =>
        rw [hh] at h
        cases hm : minKeyOf key ltK rest <;> rw [hm] at h <;> simp at h

theorem minKeyOf_attained {ss : List (List R)} {m : K}
    (h : minKeyOf key ltK ss = some m) :
    ∃ s ∈ ss, ∃ r t, s = r :: t ∧ key r = m := by
  induction ss with
  | nil => simp [minKeyOf] at h
  | cons s0 rest ih =>
    rw [minKeyOf] at h
    cases hh : s0.head? with
    | none =>
      rw [hh] at h
      obtain ⟨s, hs, hw⟩ := ih h
      exact ⟨s, List.mem_cons_of_mem _ hs, hw⟩
    | some r =>
      rw [hh] at h
      obtain ⟨t, rfl⟩ : ∃ t, s0 = r :: t := by
        cases s0 with
        | nil => simp at hh
        | cons a t => exact ⟨t, by simpa using congrArg (List.cons · t) (by simpa using hh)⟩
      cases hm : minKeyOf key ltK rest with
      | none =>
        rw [hm] at h
        exact ⟨r :: t, List.mem_cons_self _ _, r, t, rfl, by simpa using h⟩
      | some m' =>
        rw [hm] at h
        have hmin := minK_choice ltK (key r) m'
        have hval : minK ltK (key r) m' = m := by simpa using h
        rcases hmin with hc | hc
        · exact ⟨r :: t, List.mem_cons_self _ _, r, t, rfl, hc ▸ hval⟩
        · obtain ⟨s, hs, hw⟩ := ih (hm.trans (by rw [← hval, hc]))
          exact ⟨s, List.mem_cons_of_mem _ hs, hw⟩

end WalkerLemmas

section WalkerMain

variable {R K : Type} [DecidableEq K] {key : R → K} {ltK : K → K → Bool}

theorem ltK_irrefl (hasym : ∀ a b, ltK a b = true → ltK b a = true → False)
    (c : K) : ltK c c = false := by
  cases hc : ltK c c
  · rfl
  · exact absurd hc (fun hc => hasym c c hc hc)

theorem ltK_false_trans
    (htr : ∀ a b c, ltK a b = true → ltK b c = true → ltK a c = true)
    (htot : ∀ a b, ltK a b = true ∨ ltK b a = true ∨ a = b)
    {x y z : K} (h1 : ltK x y = false) (h2 : ltK y z = false) :
    ltK x z = false := by
  cases hxz : ltK x z
  · rfl
  · exfalso
    rcases htot x y with hxy | hyx | rfl
    · exact Bool.noConfusion (h1 ▸ hxy)
    · exact Bool.noConfusion (h2 ▸ htr y x z hyx hxz)
    · exact Bool.noConfusion (h2 ▸ hxz)

theorem minKeyOf_not_lt
    (htr : ∀ a b c, ltK a b = true → ltK b c = true → ltK a c = true)
    (hasym : ∀ a b, ltK a b = true → ltK b a = true → False)
    (htot : ∀ a b, ltK a b = true ∨ ltK b a = true ∨ a = b) :
    ∀ {ss : List (List R)} {m : K}, minKeyOf key ltK ss = some m →
      ∀ s ∈ ss, ∀ r, s.head? = some r → ltK (key r) m = false := by
  intro ss
  induction ss with
  | nil => intro m h; simp [minKeyOf] at h
  | cons s0 rest ih =>
    intro m h s hs r hr
    rw [minKeyOf] at h
    cases hh : s0.head? with
    | none =>
      rw [hh] at h
      rcases List.mem_cons.mp hs with rfl | hs
      · exact absurd (hh.symm.trans hr) (by simp)
      · exact ih h s hs r hr
    | some r0 =>
      rw [hh] at h
      cases hm : minKeyOf key ltK rest with
      | none =>
        rw [hm] at h
        have hmr : key r0 = m := by simpa using h
        rcases List.mem_cons.mp hs with rfl | hs
        · obtain rfl : r0 = r := by simpa using hh.symm.trans hr
          rw [hmr]
          exact ltK_irrefl hasym m
        · have := minKeyOf_eq_none hm s hs
          subst this
          simp at hr
      | some m' =>
        rw [hm] at h
        have hval : minK ltK (key r0) m' = m := by simpa using h
        obtain ⟨hna, hnm⟩ := minK_not_lt hasym (key r0) m'
        rw [hval] at hna hnm
        rcases List.mem_cons.mp hs with rfl | hs
        · obtain rfl : r0 = r := by simpa using hh.symm.trans hr
          exact hna
        · exact ltK_false_trans htr htot (ih hm s hs r hr) hnm

theorem lengthSum_eq_zero {ss : List (List R)} (h : lengthSum ss = 0) :
    ∀ s ∈ ss, s = [] := by
  intro s hs
  rw [lengthSum, List.sum_eq_zero_iff] at h
  exact List.length_eq_zero.mp (h s.length (List.mem_map_of_mem _ hs))

theorem advanceOne_length_le (m : K) (s : List R) :
    (advanceOne key m s).length ≤ s.length := by
  cases s with
  | nil => exact le_refl _
  | cons r t =>
    rw [advanceOne]
    by_cases h : key r = m
    · rw [if_pos h]
      exact Nat.le_succ _
    · rw [if_neg h]

theorem lengthSum_advance_le (m : K) : ∀ ss : List (List R),
    lengthSum (advanceStreams key m ss) ≤ lengthSum ss := by
  intro ss
  induction ss with
  | nil => exact le_refl _
  | cons s rest ih =>
    have h1 : lengthSum (advanceStreams key m (s :: rest)) =
        (advanceOne key m s).length + lengthSum (advanceStreams key m rest) := rfl
    have h2 : lengthSum (s :: rest) = s.length + lengthSum rest := rfl
    rw [h1, h2]
    exact Nat.add_le_add (advanceOne_length_le m s) ih

theorem lengthSum_advance_lt :
    ∀ (ss : List (List R)) (m : K), minKeyOf key ltK ss = some m →
      lengthSum (advanceStreams key m ss) < lengthSum ss := by
  intro ss
  induction ss with
  | nil => intro m h; simp [minKeyOf] at h
  | cons s rest ih =>
    intro m h
    have h1 : lengthSum (advanceStreams key m (s :: rest)) =
        (advanceOne key m s).length + lengthSum (advanceStreams key m rest) := rfl
    have h2 : lengthSum (s :: rest) = s.length + lengthSum rest := rfl
    rw [h1, h2]
    cases s with
    | nil =>
      simp only [minKeyOf, List.head?_nil] at h
      have := ih m h
      simpa [advanceOne] using this
    | cons r t =>
      simp only [minKeyOf, List.head?_cons] at h
      cases hm : minKeyOf key ltK rest with
      | none =>
        rw [hm] at h
        have hmr : key r = m := by simpa using h
        rw [advanceOne, if_pos hmr]
        have hle : lengthSum (advanceStreams key m rest) ≤ lengthSum rest :=
          lengthSum_advance_le m rest
        simp only [List.length_cons]
        omega
      | some m' =>
        rw [hm] at h
        have hval : minK ltK (key r) m' = m := by simpa using h
        rcases minK_choice ltK (key r) m' with hc | hc
        · have hmr : key r = m := by rw [← hval, hc]
          rw [advanceOne, if_pos hmr]
          have hle : lengthSum (advanceStreams key m rest) ≤ lengthSum rest :=
          lengthSum_advance_le m rest
          simp only [List.length_cons]
          omega
        · have hm2 : m = m' := by rw [← hval, hc]
          subst hm2
          have hlt := ih m hm
          have hle : (advanceOne key m (r :: t)).length ≤ (r :: t).length :=
            advanceOne_length_le m (r :: t)
          omega

theorem walkAux_slots :
    ∀ (fuel : Nat) (ss : List (List R)), lengthSum ss ≤ fuel →
      ∀ (i : Nat) (s : List R), ss.get? i = some s →
        slotRecords i (walkAux key ltK fuel ss) = s := by
  intro fuel
  induction fuel with
  | zero =>
    intro ss hf i s hs
    have : s = [] :=
      lengthSum_eq_zero (Nat.le_zero.mp hf) s (List.get?_mem hs)
    subst this
    rfl
  | succ fuel ih =>
    intro ss hf i s hs
    rw [walkAux]
    cases hm : minKeyOf key ltK ss with
    | none =>
      have : s = [] := minKeyOf_eq_none hm s (List.get?_mem hs)
      subst this
      rfl
    | some m =>
      have hrow : (emitRow key m ss).get? i = some (slotOne key m s) := by
        rw [emitRow, List.get?_map, hs]
        rfl
      have hadv : (advanceStreams key m ss).get? i =
          some (advanceOne key m s) := by
        rw [advanceStreams, List.get?_map, hs]
        rfl
      have hf' : lengthSum (advanceStreams key m ss) ≤ fuel :=
        Nat.lt_succ_iff.mp (Nat.lt_of_lt_of_le (lengthSum_advance_lt ss m hm) hf)
      have hrec := ih (advanceStreams key m ss) hf' i (advanceOne key m s) hadv
      rw [slotRecords, List.filterMap_cons, hrow]
      cases s with
      | nil =>
        simp only [slotOne, List.head?_nil, Option.bind]
        exact hrec
      | cons r t =>
        by_cases hk : key r = m
        · simp only [slotOne, List.head?_cons, if_pos hk, Option.bind]
          rw [advanceOne, if_pos hk] at hrec
          exact congrArg (r :: ·) hrec
        · simp only [slotOne, List.head?_cons, if_neg hk, Option.bind]
          rw [advanceOne, if_neg hk] at hrec
          exact hrec

end WalkerMain

section WalkerChainCount

variable {R K : Type} [DecidableEq K] {key : R → K} {ltK : K → K → Bool}

theorem slotOne_eq_some {m : K} {s : List R} {a : R}
    (h : slotOne key m s = some a) : s.head? = some a ∧ key a = m := by
  cases s with
  | nil => simp [slotOne] at h
  | cons r t =>
    simp only [slotOne, List.head?_cons] at h
    by_cases hk : key r = m
    · rw [if_pos hk] at h
      obtain rfl : r = a := by simpa using h
      exact ⟨rfl, hk⟩
    · rw [if_neg hk] at h
      simp at h

theorem rowRecs_emitRow {m : K} {ss : List (List R)} {a : R}
    (h : a ∈ rowRecs (emitRow key m ss)) :
    key a = m ∧ ∃ s ∈ ss, s.head? = some a := by
  rw [rowRecs, emitRow, List.filterMap_map] at h
  obtain ⟨s, hs, hsome⟩ := List.mem_filterMap.mp h
  obtain ⟨hhead, hkey⟩ := slotOne_eq_some
    (show slotOne key m s = some a by simpa using hsome)
  exact ⟨hkey, s, hs, hhead⟩

theorem advanceOne_subset {m : K} {s : List R} {r : R}
    (h : r ∈ advanceOne key m s) : r ∈ s := by
  cases s with
  | nil => simpa [advanceOne] using h
  | cons a t =>
    rw [advanceOne] at h
    by_cases hk : key a = m
    · rw [if_pos hk] at h
      exact List.mem_cons_of_mem _ h
    · rw [if_neg hk] at h
      exact h

theorem mem_walkAux :
    ∀ (fuel : Nat) (ss : List (List R)) (row : List (Option R)),
      row ∈ walkAux key ltK fuel ss → ∀ a ∈ rowRecs row, ∃ s ∈ ss, a ∈ s := by
  intro fuel
  induction fuel with
  | zero =>
    intro ss row hrow
    simp [walkAux] at hrow
  | succ fuel ih =>
    intro ss row hrow a ha
    rw [walkAux] at hrow
    cases hm : minKeyOf key ltK ss with
    | none =>
      rw [hm] at hrow
      simp at hrow
    | some m =>
      rw [hm] at hrow
      rcases List.mem_cons.mp hrow with rfl | hrow
      · obtain ⟨_, s, hs, hhead⟩ := rowRecs_emitRow ha
        exact ⟨s, hs, List.mem_of_mem_head? hhead⟩
      · obtain ⟨s', hs', ha'⟩ := ih (advanceStreams key m ss) row hrow a ha
        rw [advanceStreams] at hs'
        obtain ⟨s, hs, rfl⟩ := List.mem_map.mp hs'
        exact ⟨s, hs, advanceOne_subset ha'⟩

theorem strictIncBy_tail {s : List R} {r : R}
    (h : strictIncBy key ltK (r :: s) = true) :
    strictIncBy key ltK s = true := by
  cases s with
  | nil => rfl
  | cons b t =>
    rw [strictIncBy, Bool.and_eq_true] at h
    exact h.2

theorem strictIncBy_head_lt
    (htr : ∀ a b c, ltK a b = true → ltK b c = true → ltK a c = true) :
    ∀ {t : List R} {r : R}, strictIncBy key ltK (r :: t) = true →
      ∀ x ∈ t, ltK (key r) (key x) = true := by
  intro t
  induction t with
  | nil =>
    intro r _ x hx
    simp at hx
  | cons b t' ih =>
    intro r h x hx
    rw [strictIncBy, Bool.and_eq_true] at h
    rcases List.mem_cons.mp hx with rfl | hx
    · exact h.1
    · exact htr _ _ _ h.1 (ih h.2 x hx)

theorem advanceOne_strictInc {m : K} {s : List R}
    (h : strictIncBy key ltK s = true) :
    strictIncBy key ltK (advanceOne key m s) = true := by
  cases s with
  | nil => rfl
  | cons r t =>
    rw [advanceOne]
    by_cases hk : key r = m
    · rw [if_pos hk]
      exact strictIncBy_tail h
    · rw [if_neg hk]
      exact h

theorem advance_strictInc {m : K} {ss : List (List R)}
    (hsorted : ∀ s ∈ ss, strictIncBy key ltK s = true) :
    ∀ s' ∈ advanceStreams key m ss, strictIncBy key ltK s' = true := by
  intro s' hs'
  rw [advanceStreams] at hs'
  obtain ⟨s, hs, rfl⟩ := List.mem_map.mp hs'
  exact advanceOne_strictInc (hsorted s hs)

theorem advance_elem_gt
    (htr : ∀ a b c, ltK a b = true → ltK b c = true → ltK a c = true)
    (hasym : ∀ a b, ltK a b = true → ltK b a = true → False)
    (htot : ∀ a b, ltK a b = true ∨ ltK b a = true ∨ a = b)
    {ss : List (List R)} {m : K} (hm : minKeyOf key ltK ss = some m)
    (hsorted : ∀ s ∈ ss, strictIncBy key ltK s = true) :
    ∀ s' ∈ advanceStreams key m ss, ∀ r ∈ s', ltK m (key r) = true := by
  intro s' hs' r hr
  rw [advanceStreams] at hs'
  obtain ⟨s, hs, rfl⟩ := List.mem_map.mp hs'
  cases s with
  | nil => simp [advanceOne] at hr
  | cons r0 t =>
    have hnl : ltK (key r0) m = false :=
      minKeyOf_not_lt htr hasym htot hm _ hs r0 rfl
    rw [advanceOne] at hr
    by_cases hk : key r0 = m
    · rw [if_pos hk] at hr
      have := strictIncBy_head_lt htr (hsorted _ hs) r hr
      rw [hk] at this
      exact this
    · rw [if_neg hk] at hr
      have hm_lt : ltK m (key r0) = true := by
        rcases htot (key r0) m with h1 | h1 | h1
        · exact Bool.noConfusion (hnl ▸ h1)
        · exact h1
        · exact absurd h1 hk
      rcases List.mem_cons.mp hr with rfl | hr
      · exact hm_lt
      · exact htr _ _ _ hm_lt (strictIncBy_head_lt htr (hsorted _ hs) r hr)

theorem walkAux_chain
    (htr : ∀ a b c, ltK a b = true → ltK b c = true → ltK a c = true)
    (hasym : ∀ a b, ltK a b = true → ltK b a = true → False)
    (htot : ∀ a b, ltK a b = true ∨ ltK b a = true ∨ a = b) :
    ∀ (fuel : Nat) (ss : List (List R)), lengthSum ss ≤ fuel →
      (∀ s ∈ ss, strictIncBy key ltK s = true) →
      List.Chain' (fun r1 r2 => ∀ a ∈ rowRecs r1, ∀ b ∈ rowRecs r2,
        ltK (key a) (key b) = true) (walkAux key ltK fuel ss) := by
  intro fuel
  induction fuel with
  | zero =>
    intro ss _ _
    exact List.chain'_nil
  | succ fuel ih =>
    intro ss hf hsorted
    rw [walkAux]
    cases hm : minKeyOf key ltK ss with
    | none => exact List.chain'_nil
    | some m =>
      have hf' : lengthSum (advanceStreams key m ss) ≤ fuel :=
        Nat.lt_succ_iff.mp (Nat.lt_of_lt_of_le (lengthSum_advance_lt ss m hm) hf)
      refine List.chain'_cons'.mpr ⟨?_, ih _ hf' (advance_strictInc hsorted)⟩
      intro y hy a ha b hb
      obtain ⟨s', hs', hb'⟩ :=
        mem_walkAux fuel _ y (List.mem_of_mem_head? hy) b hb
      have hbgt : ltK m (key b) = true :=
        advance_elem_gt htr hasym htot hm hsorted s' hs' b hb'
      obtain ⟨hka, _⟩ := rowRecs_emitRow ha
      rw [hka]
      exact hbgt

theorem keys_advance_subset {m : K} {ss : List (List R)} {x : K}
    (hx : x ∈ (advanceStreams key m ss).flatten.map key) :
    x ∈ ss.flatten.map key := by
  obtain ⟨r, hr, rfl⟩ := List.mem_map.mp hx
  obtain ⟨s', hs', hr'⟩ := List.mem_flatten.mp hr
  rw [advanceStreams] at hs'
  obtain ⟨s, hs, rfl⟩ := List.mem_map.mp hs'
  exact List.mem_map_of_mem _ (List.mem_flatten.mpr ⟨s, hs, advanceOne_subset hr'⟩)

theorem keys_insert_advance
    (htr : ∀ a b c, ltK a b = true → ltK b c = true → ltK a c = true)
    (hasym : ∀ a b, ltK a b = true → ltK b a = true → False)
    (htot : ∀ a b, ltK a b = true ∨ ltK b a = true ∨ a = b)
    {ss : List (List R)} {m : K} (hm : minKeyOf key ltK ss = some m)
    (hsorted : ∀ s ∈ ss, strictIncBy key ltK s = true) :
    (ss.flatten.map key).toFinset =
        insert m ((advanceStreams key m ss).flatten.map key).toFinset ∧
      m ∉ ((advanceStreams key m ss).flatten.map key).toFinset := by
  constructor
  · apply Finset.ext
    intro x
    simp only [List.mem_toFinset, Finset.mem_insert]
    constructor
    · intro hx
      obtain ⟨r, hr, rfl⟩ := List.mem_map.mp hx
      obtain ⟨s, hs, hrs⟩ := List.mem_flatten.mp hr
      cases s with
      | nil => simp at hrs
      | cons r0 t =>
        rcases List.mem_cons.mp hrs with rfl | hrs
        · by_cases hk : key r = m
          · exact Or.inl hk
          · refine Or.inr (List.mem_map_of_mem _ (List.mem_flatten.mpr
              ⟨advanceOne key m (r :: t), ?_, ?_⟩))
            · rw [advanceStreams]
              exact List.mem_map_of_mem _ hs
            · rw [advanceOne, if_neg hk]
              exact List.mem_cons_self _ _
        · refine Or.inr (List.mem_map_of_mem _ (List.mem_flatten.mpr
            ⟨advanceOne key m (r0 :: t), ?_, ?_⟩))
          · rw [advanceStreams]
            exact List.mem_map_of_mem _ hs
          · rw [advanceOne]
            by_cases hk : key r0 = m
            · rw [if_pos hk]
              exact hrs
            · rw [if_neg hk]
              exact List.mem_cons_of_mem _ hrs
    · intro hx
      rcases hx with rfl | hx
      · obtain ⟨s, hs, r, t, rfl, hk⟩ := minKeyOf_attained hm
        exact hk ▸ List.mem_map_of_mem _
          (List.mem_flatten.mpr ⟨r :: t, hs, List.mem_cons_self _ _⟩)
      · exact keys_advance_subset hx
  · intro hmem
    rw [List.mem_toFinset] at hmem
    obtain ⟨r, hr, hkr⟩ := List.mem_map.mp hmem
    obtain ⟨s', hs', hr'⟩ := List.mem_flatten.mp hr
    have hgt := advance_elem_gt htr hasym htot hm hsorted s' hs' r hr'
    rw [hkr] at hgt
    exact Bool.noConfusion ((ltK_irrefl hasym m) ▸ hgt)

theorem walkAux_length
    (htr : ∀ a b c, ltK a b = true → ltK b c = true → ltK a c = true)
    (hasym : ∀ a b, ltK a b = true → ltK b a = true → False)
    (htot : ∀ a b, ltK a b = true ∨ ltK b a = true ∨ a = b) :
    ∀ (fuel : Nat) (ss : List (List R)), lengthSum ss ≤ fuel →
      (∀ s ∈ ss, strictIncBy key ltK s = true) →
      (walkAux key ltK fuel ss).length =
        (ss.flatten.map key).toFinset.card := by
  intro fuel
  induction fuel with
  | zero =>
    intro ss hf _
    have hz : ss.flatten = [] :=
      List.flatten_eq_nil_iff.mpr (lengthSum_eq_zero (Nat.le_zero.mp hf))
    rw [walkAux, hz]
    rfl
  | succ fuel ih =>
    intro ss hf hsorted
    rw [walkAux]
    cases hm : minKeyOf key ltK ss with
    | none =>
      have hz : ss.flatten = [] :=
        List.flatten_eq_nil_iff.mpr (minKeyOf_eq_none hm)
      rw [hz]
      rfl
    | some m =>
      have hf' : lengthSum (advanceStreams key m ss) ≤ fuel :=
        Nat.lt_succ_iff.mp (Nat.lt_of_lt_of_le (lengthSum_advance_lt ss m hm) hf)
      obtain ⟨hset, hnot⟩ := keys_insert_advance htr hasym htot hm hsorted
      rw [List.length_cons, hset, Finset.card_insert_of_not_mem hnot,
        ih _ hf' (advance_strictInc hsorted)]

end WalkerChainCount

/-! ## The concrete sort key and its order

`vcf_record_sort_key(r)` returns the tuple `(r.CHROM, r.POS, r.REF, r.ALT)`;
Python compares tuples lexicographically by component, strings byte-wise and
the ALT list lexicographically over its string elements. -/

/-- Python 2 `<` on strings. -/
def strLtB (a b : String) : Bool := lexLt charLtB a.data b.data

/-- `<` on naturals as a Bool. -/
def natLtB (a b : Nat) : Bool := decide (a < b)

/-- Python 2 `<` on the ALT allele list. -/
def altLtB : List String → List String → Bool := lexLt strLtB

/-- Python 2 `<` on a pair, lexicographic by component. -/
def pairLt (ltA : α → α → Bool) (lt2 : β → β → Bool) [DecidableEq α]
    (x y : α × β) : Bool :=
  ltA x.1 y.1 || (decide (x.1 = y.1) && lt2 x.2 y.2)

/-- The sort key tuple type of `vcf_record_sort_key`. -/
abbrev VCFSortKey := String × Nat × String × List String

/-- Python 2 `<` on sort key tuples. -/
def vcfKeyLt : VCFSortKey → VCFSortKey → Bool :=
  pairLt strLtB (pairLt natLtB (pairLt strLtB altLtB))

theorem charLtB_total (a b : Char) :
    charLtB a b = true ∨ charLtB b a = true ∨ a = b := by
  rcases lt_trichotomy a b with h | h | h
  · exact Or.inl (by simpa [charLtB] using h)
  · exact Or.inr (Or.inr h)
  · exact Or.inr (Or.inl (by simpa [charLtB] using h))

theorem lexLt_total (lt : α → α → Bool) [DecidableEq α]
    (htot : ∀ a b, lt a b = true ∨ lt b a = true ∨ a = b) :
    ∀ x y : List α, lexLt lt x y = true ∨ lexLt lt y x = true ∨ x = y := by
  intro x
  induction x with
  | nil =>
    intro y
    cases y with
    | nil => exact Or.inr (Or.inr rfl)
    | cons b bs => exact Or.inl (by simp [lexLt])
  | cons a as ih =>
    intro y
    cases y with
    | nil => exact Or.inr (Or.inl (by simp [lexLt]))
    | cons b bs =>
      rcases htot a b with h | h | rfl
      · exact Or.inl (by simp [lexLt, h])
      · exact Or.inr (Or.inl (by simp [lexLt, h]))
      · rcases ih bs with h | h | rfl
        · exact Or.inl (by simp [lexLt, h])
        · exact Or.inr (Or.inl (by simp [lexLt, h]))
        · exact Or.inr (Or.inr rfl)

theorem strLtB_trans : ∀ a b c : String, strLtB a b = true →
    strLtB b c = true → strLtB a c = true :=
  fun _ _ _ h1 h2 => lexLt_trans charLtB charLtB_trans h1 h2

theorem strLtB_asymm : ∀ a b : String, strLtB a b = true →
    strLtB b a = true → False :=
  fun _ _ h1 h2 => lexLt_asymm charLtB charLtB_asymm h1 h2

theorem strLtB_total : ∀ a b : String,
    strLtB a b = true ∨ strLtB b a = true ∨ a = b := by
  intro a b
  rcases lexLt_total charLtB charLtB_total a.data b.data with h | h | h
  · exact Or.inl h
  · exact Or.inr (Or.inl h)
  · refine Or.inr (Or.inr ?_)
    cases a
    cases b
    exact congrArg String.mk h

theorem natLtB_trans : ∀ a b c : Nat, natLtB a b = true →
    natLtB b c = true → natLtB a c = true := by
  intro a b c h1 h2
  simp only [natLtB, decide_eq_true_eq] at h1 h2 ⊢
  omega

theorem natLtB_asymm : ∀ a b : Nat, natLtB a b = true →
    natLtB b a = true → False := by
  intro a b h1 h2
  simp only [natLtB, decide_eq_true_eq] at h1 h2
  omega

theorem natLtB_total : ∀ a b : Nat,
    natLtB a b = true ∨ natLtB b a = true ∨ a = b := by
  intro a b
  simp only [natLtB, decide_eq_true_eq]
  omega

theorem altLtB_trans : ∀ a b c : List String, altLtB a b = true →
    altLtB b c = true → altLtB a c = true :=
  fun _ _ _ h1 h2 => lexLt_trans strLtB strLtB_trans h1 h2

theorem altLtB_asymm : ∀ a b : List String, altLtB a b = true →
    altLtB b a = true → False :=
  fun _ _ h1 h2 => lexLt_asymm strLtB strLtB_asymm h1 h2

theorem altLtB_total : ∀ a b : List String,
    altLtB a b = true ∨ altLtB b a = true ∨ a = b :=
  lexLt_total strLtB strLtB_total

theorem pairLt_trans {α β : Type} [DecidableEq α]
    (ltA : α → α → Bool) (lt2 : β → β → Bool)
    (htrA : ∀ a b c, ltA a b = true → ltA b c = true → ltA a c = true)
    (htr2 : ∀ a b c, lt2 a b = true → lt2 b c = true → lt2 a c = true) :
    ∀ x y z : α × β, pairLt ltA lt2 x y = true → pairLt ltA lt2 y z = true →
      pairLt ltA lt2 x z = true := by
  rintro ⟨x1, x2⟩ ⟨y1, y2⟩ ⟨z1, z2⟩ h1 h2
  simp only [pairLt, Bool.or_eq_true, Bool.and_eq_true,
    decide_eq_true_eq] at h1 h2 ⊢
  rcases h1 with h1 | ⟨rfl, h1⟩
  · rcases h2 with h2 | ⟨rfl, h2⟩
    · exact Or.inl (htrA _ _ _ h1 h2)
    · exact Or.inl h1
  · rcases h2 with h2 | ⟨rfl, h2⟩
    · exact Or.inl h2
    · exact Or.inr ⟨rfl, htr2 _ _ _ h1 h2⟩

theorem pairLt_asymm {α β : Type} [DecidableEq α]
    (ltA : α → α → Bool) (lt2 : β → β → Bool)
    (hasA : ∀ a b, ltA a b = true → ltA b a = true → False)
    (has2 : ∀ a b, lt2 a b = true → lt2 b a = true → False) :
    ∀ x y : α × β, pairLt ltA lt2 x y = true → pairLt ltA lt2 y x = true →
      False := by
  rintro ⟨x1, x2⟩ ⟨y1, y2⟩ h1 h2
  simp only [pairLt, Bool.or_eq_true, Bool.and_eq_true,
    decide_eq_true_eq] at h1 h2
  rcases h1 with h1 | ⟨heq1, h1⟩
  · rcases h2 with h2 | ⟨heq2, h2⟩
    · exact hasA _ _ h1 h2
    · subst heq2
      exact hasA _ _ h1 h1
  · subst heq1
    rcases h2 with h2 | ⟨heq2, h2⟩
    · exact hasA _ _ h2 h2
    · exact has2 _ _ h1 h2

theorem pairLt_total {α β : Type} [DecidableEq α]
    (ltA : α → α → Bool) (lt2 : β → β → Bool)
    (htotA : ∀ a b, ltA a b = true ∨ ltA b a = true ∨ a = b)
    (htot2 : ∀ a b, lt2 a b = true ∨ lt2 b a = true ∨ a = b) :
    ∀ x y : α × β, pairLt ltA lt2 x y = true ∨ pairLt ltA lt2 y x = true ∨
      x = y := by
  rintro ⟨x1, x2⟩ ⟨y1, y2⟩
  rcases htotA x1 y1 with h | h | rfl
  · exact Or.inl (by simp [pairLt, h])
  · exact Or.inr (Or.inl (by simp [pairLt, h]))
  · rcases htot2 x2 y2 with h | h | rfl
    · exact Or.inl (by simp [pairLt, h])
    · exact Or.inr (Or.inl (by simp [pairLt, h]))
    · exact Or.inr (Or.inr rfl)

theorem vcfKeyLt_trans : ∀ a b c : VCFSortKey, vcfKeyLt a b = true →
    vcfKeyLt b c = true → vcfKeyLt a c = true :=
  pairLt_trans _ _ strLtB_trans
    (pairLt_trans _ _ natLtB_trans
      (pairLt_trans _ _ strLtB_trans altLtB_trans))

theorem vcfKeyLt_asymm : ∀ a b : VCFSortKey, vcfKeyLt a b = true →
    vcfKeyLt b a = true → False :=
  pairLt_asymm _ _ strLtB_asymm
    (pairLt_asymm _ _ natLtB_asymm
      (pairLt_asymm _ _ strLtB_asymm altLtB_asymm))

theorem vcfKeyLt_total : ∀ a b : VCFSortKey,
    vcfKeyLt a b = true ∨ vcfKeyLt b a = true ∨ a = b :=
  pairLt_total _ _ strLtB_total
    (pairLt_total _ _ natLtB_total
      (pairLt_total _ _ strLtB_total altLtB_total))

/-- `vcf_record_sort_key(r)` (lines 216-217): the alignment key tuple
`(r.CHROM, r.POS, r.REF, r.ALT)`. -/
def vcf_record_sort_key (r : VCFRecord) : VCFSortKey :=
  (r.CHROM, r.POS, r.REF, r.ALT)

/-- `create_vcf_walktogether(vcf_files)` (lines 207-218): the walk-together
sequence over the streams, keyed by `vcf_record_sort_key` (the walker itself
is modelled from spec §4.4, as `vcf.utils.walk_together` is external). -/
def create_vcf_walktogether (vcf_files : List (List VCFRecord)) :
    List (List (Option VCFRecord)) :=
  walkTogether vcf_record_sort_key vcfKeyLt vcf_files

/-- Claim C1: over streams each strictly sorted by the alignment key, the
walk-together sequence (1) emits, in slot `i` across all tuples, exactly the
records of stream `i` in order — so every record lands in exactly one tuple
slot, none skipped, none duplicated; (2) emits tuples in strictly increasing
key order (every record of a tuple has key strictly below every record of
the next tuple); and (3) emits exactly one tuple per distinct alignment key
across all streams combined. -/
theorem create_vcf_walktogether_correct (streams : List (List VCFRecord))
    (hsorted : ∀ s ∈ streams,
      strictIncBy vcf_record_sort_key vcfKeyLt s = true) :
    (∀ (i : Nat) (hi : i < streams.length),
        slotRecords i (create_vcf_walktogether streams) =
          streams.get ⟨i, hi⟩) ∧
      List.Chain' (fun r1 r2 => ∀ a ∈ rowRecs r1, ∀ b ∈ rowRecs r2,
          vcfKeyLt (vcf_record_sort_key a) (vcf_record_sort_key b) = true)
        (create_vcf_walktogether streams) ∧
      (create_vcf_walktogether streams).length =
        (streams.flatten.map vcf_record_sort_key).toFinset.card := by
  refine ⟨?_, ?_, ?_⟩
  · intro i hi
    exact walkAux_slots (lengthSum streams) streams (le_refl _) i _
      (List.get?_eq_get hi)
  · exact walkAux_chain vcfKeyLt_trans vcfKeyLt_asymm vcfKeyLt_total
      (lengthSum streams) streams (le_refl _) hsorted
  · exact walkAux_length vcfKeyLt_trans vcfKeyLt_asymm vcfKeyLt_total
      (lengthSum streams) streams (le_refl _) hsorted

/-- Witness streams for claim C1: two streams, the first with two records,
the second sharing the first record's alignment key. -/
def wStreams : List (List VCFRecord) :=
  [[⟨"1", 5, "A", ["T"]⟩, ⟨"2", 3, "C", ["G"]⟩], [⟨"1", 5, "A", ["T"]⟩]]

/-- Witness for claim C1 at `wStreams`. -/
theorem create_vcf_walktogether_correct_witness :
    (∀ s ∈ wStreams, strictIncBy vcf_record_sort_key vcfKeyLt s = true) ∧
      ((∀ (i : Nat) (hi : i < wStreams.length),
          slotRecords i (create_vcf_walktogether wStreams) =
            wStreams.get ⟨i, hi⟩) ∧
        List.Chain' (fun r1 r2 => ∀ a ∈ rowRecs r1, ∀ b ∈ rowRecs r2,
            vcfKeyLt (vcf_record_sort_key a) (vcf_record_sort_key b) = true)
          (create_vcf_walktogether wStreams) ∧
        (create_vcf_walktogether wStreams).length =
          (wStreams.flatten.map vcf_record_sort_key).toFinset.card) :=
  ⟨by decide, create_vcf_walktogether_correct wStreams (by decide)⟩
